import Mathlib

/-!
# Verification of the Mandelbrot field compute engine (src/main.cpp)

Shallow embedding of the core of `src/main.cpp`:

* `Mandelbrot.computeMandelbrot` — the escape-time iteration kernel
  (`Mandelbrot::ComputeMandelbrot`, lines 28–41);
* `Mandelbrot.getColor` / `Mandelbrot.colors` — the palette construction
  (`Mandelbrot::GetColor`, lines 43–58, and the constructor loop, lines 22–26);
* `Mandelbrot.updateImageSlice` — the per-slice pixel loop
  (`Mandelbrot::UpdateImageSlice`, lines 60–71);
* `Mandelbrot.updateImage` — the frame update with its slice-dispatch loop
  (`Mandelbrot::UpdateImage`, lines 73–83).

C++ `double` values are modelled as exact rationals (`ℚ`): the arithmetic of
the source (`+`, `*`, comparison against `4.0`) is carried over verbatim.
C++ `int`/`unsigned` loop counters and pixel indices are modelled as `Nat`
(all the modelled quantities are provably non-negative and far from any
integer-width bound). The C++ cast `(int)` applied to a non-negative `double`
truncates toward zero, i.e. is the floor; the model keeps the general
toward-zero truncation `truncToInt`. The conversion `int → sf::Uint8`
performed by the `sf::Color` constructor reduces mod 256; the model keeps it
as `toUint8`. `std::thread::hardware_concurrency()` is an environment value,
modelled as an unconstrained `Nat` parameter `W`; the C++ expression
`IMAGE_HEIGHT / W` with `W = 0` is a division by zero (undefined behavior),
modelled by an `Option` result of `updateImage`.
-/

namespace Mandelbrot

/-- `IMAGE_WIDTH` from src/main.cpp line 7. -/
def IMAGE_WIDTH : Nat := 960

/-- `IMAGE_HEIGHT` from src/main.cpp line 8. -/
def IMAGE_HEIGHT : Nat := 540

/-- `kMaxIterations` from src/main.cpp line 15. -/
def kMaxIterations : Nat := 1000

/-- An `sf::Color`: three 8-bit channels, modelled as `Nat` values `< 256`
produced by the mod-256 conversion `toUint8`. -/
structure Color where
  r : Nat
  g : Nat
  b : Nat
deriving DecidableEq, Repr

/-- C++ truncation of a non-negative-or-negative real toward zero, as performed
by the `(int)` casts in `GetColor`. -/
def truncToInt (q : ℚ) : Int :=
  if 0 ≤ q then ⌊q⌋ else -⌊-q⌋

/-- Conversion `int → sf::Uint8` (mod 2^8), as performed by the `sf::Color`
constructor on each channel. -/
def toUint8 (v : Int) : Nat :=
  (v % 256).toNat

/-- `Mandelbrot::GetColor` (src/main.cpp lines 43–58): map an iteration count
to a color via the Bernstein-style polynomials, each channel truncated to
`int` and then stored into an 8-bit channel. -/
def getColor (iterations : Nat) : Color :=
  let t : ℚ := (iterations : ℚ) / (kMaxIterations : ℚ)
  let r : Int := truncToInt (9 * (1 - t) * t * t * t * 255)
  let g : Int := truncToInt (15 * (1 - t) * (1 - t) * t * t * 255)
  let b : Int := truncToInt ((8.5 : ℚ) * (1 - t) * (1 - t) * (1 - t) * t * 255)
  ⟨toUint8 r, toUint8 g, toUint8 b⟩

/-- The palette array `colors` filled by the constructor
(src/main.cpp lines 22–26): `colors[i] = GetColor(i)` for `0 ≤ i ≤ kMaxIterations`. -/
def colors (i : Nat) : Color := getColor i

/-- The body of the `for` loop of `Mandelbrot::ComputeMandelbrot`
(src/main.cpp lines 31–39), recursing on the remaining iteration budget
`fuel` with `counter` the number of completed steps; when the budget is
exhausted the function returns `kMaxIterations` (line 40). -/
def mandelGo (c_real c_imag : ℚ) : ℚ → ℚ → Nat → Nat → Nat
  | _, _, _, 0 => kMaxIterations
  | z_real, z_imag, counter, fuel + 1 =>
    let r2 := z_real * z_real
    let i2 := z_imag * z_imag
    if r2 + i2 > 4 then counter
    else mandelGo c_real c_imag (r2 - i2 + c_real) (2 * z_real * z_imag + c_imag)
      (counter + 1) fuel

/-- `Mandelbrot::ComputeMandelbrot` (src/main.cpp lines 28–41):
start the orbit at `z = c` and run at most `kMaxIterations` steps. -/
def computeMandelbrot (c_real c_imag : ℚ) : Nat :=
  mandelGo c_real c_imag c_real c_imag 0 kMaxIterations

/-- An `sf::Image` surface, as the function from pixel coordinates to the
stored color. The engine only ever addresses `x < IMAGE_WIDTH`,
`y < IMAGE_HEIGHT`; pixels outside that range are never written. -/
def Image : Type := Nat → Nat → Color

/-- `sf::Image::setPixel(x, y, c)`. -/
def setPixel (img : Image) (x y : Nat) (c : Color) : Image :=
  fun x' y' => if x' = x ∧ y' = y then c else img x' y'

/-- The inner `y` loop of `Mandelbrot::UpdateImageSlice`
(src/main.cpp lines 66–69) for a fixed column `x`: starting at row `y` with
accumulated imaginary part `c_imag`, perform `n` iterations (the C++ loop
runs from `minY` while `y < maxY`, i.e. `maxY - minY` times), each writing
`colors[ComputeMandelbrot(c_real, c_imag)]` at `(x, y)` and then stepping
`c_imag += zoom`, `y++`. -/
def columnLoop (x : Nat) (c_real zoom : ℚ) : ℚ → Nat → Nat → Image → Image
  | _, _, 0, img => img
  | c_imag, y, n + 1, img =>
    columnLoop x c_real zoom (c_imag + zoom) (y + 1) n
      (setPixel img x y (colors (computeMandelbrot c_real c_imag)))

/-- The outer `x` loop of `Mandelbrot::UpdateImageSlice`
(src/main.cpp lines 64–70): starting at column `x` with accumulated real part
`c_real`, perform `n` iterations (the C++ loop runs `IMAGE_WIDTH` times),
each running the inner row loop from `minY` with the precomputed
`c_imag_start`, then stepping `c_real += zoom`, `x++`. -/
def rowLoop (zoom c_imag_start : ℚ) (minY maxY : Nat) :
    ℚ → Nat → Nat → Image → Image
  | _, _, 0, img => img
  | c_real, x, n + 1, img =>
    rowLoop zoom c_imag_start minY maxY (c_real + zoom) (x + 1) n
      (columnLoop x c_real zoom c_imag_start minY (maxY - minY) img)

/-- `Mandelbrot::UpdateImageSlice` (src/main.cpp lines 60–71). -/
def updateImageSlice (zoom offset_X offset_Y : ℚ) (img : Image)
    (minY maxY : Nat) : Image :=
  let c_real : ℚ := 0 * zoom - (IMAGE_WIDTH : ℚ) / 2 * zoom + offset_X
  let c_imag_start : ℚ :=
    (minY : ℚ) * zoom - (IMAGE_HEIGHT : ℚ) / 2 * zoom + offset_Y
  rowLoop zoom c_imag_start minY maxY c_real 0 IMAGE_WIDTH img

/-- The slice-dispatch loop of `Mandelbrot::UpdateImage`
(src/main.cpp lines 77–79), run sequentially: the C++ code spawns one thread
per slice and joins all of them before returning, and the slices write
disjoint rows, so the joined result equals this sequential execution.
`fuel` bounds the number of loop iterations; the loop guard is `i < IMAGE_HEIGHT`
and the loop advances `i += step`, each iteration processing the slice
`[i, min (i + step) IMAGE_HEIGHT)`. -/
def updateImageGo (zoom offset_X offset_Y : ℚ) (step : Nat) :
    Nat → Nat → Image → Image
  | _, 0, img => img
  | i, fuel + 1, img =>
    if i < IMAGE_HEIGHT then
      updateImageGo zoom offset_X offset_Y step (i + step) fuel
        (updateImageSlice zoom offset_X offset_Y img i
          (min (i + step) IMAGE_HEIGHT))
    else img

/-- The index of the dispatch loop of `Mandelbrot::UpdateImage` after `n`
iterations: `i` starts at `0` and each iteration executes `i += STEP`
(src/main.cpp line 77). -/
def loopIndex (step : Nat) : Nat → Nat
  | 0 => 0
  | n + 1 => loopIndex step n + step

/-- `Mandelbrot::UpdateImage` (src/main.cpp lines 73–83), parametrized by the
value `W` reported by `std::thread::hardware_concurrency()`.
`STEP = IMAGE_HEIGHT / W`; with `W = 0` that division is undefined behavior
in C++ (`int` divided by `unsigned` zero) and with `STEP = 0` the dispatch
loop never advances its index and never returns, so in both of those cases
the call does not return a repopulated surface, modelled by `none`.
When the loop runs, `IMAGE_HEIGHT` iterations always suffice
(each iteration adds `step ≥ 1` to the index), so the fuel `IMAGE_HEIGHT`
given to `updateImageGo` is not a restriction. -/
def updateImage (zoom offset_X offset_Y : ℚ) (W : Nat) (img : Image) :
    Option Image :=
  if W = 0 then none
  else if IMAGE_HEIGHT / W = 0 then none
  else some (updateImageGo zoom offset_X offset_Y (IMAGE_HEIGHT / W) 0
    IMAGE_HEIGHT img)

/-- The list of `(minY, maxY)` slice bounds dispatched by the loop of
`Mandelbrot::UpdateImage` (src/main.cpp lines 77–79), generalized over the
image height `H`; same loop structure as `updateImageGo`. -/
def slicesGo (H step : Nat) : Nat → Nat → List (Nat × Nat)
  | _, 0 => []
  | i, fuel + 1 =>
    if i < H then (i, min (i + step) H) :: slicesGo H step (i + step) fuel
    else []

/-- The slices dispatched by `Mandelbrot::UpdateImage` for reported hardware
concurrency `W` (image height `IMAGE_HEIGHT`, step `IMAGE_HEIGHT / W`). -/
def dispatchedSlices (W : Nat) : List (Nat × Nat) :=
  slicesGo IMAGE_HEIGHT (IMAGE_HEIGHT / W) 0 IMAGE_HEIGHT

/-- The slice row-ranges produced by the partitioning scheme of
`Mandelbrot::UpdateImage` for a generic image height `H` and worker count
`W`: `step = H / W` and ranges `[i, min (i + step) H)` for
`i = 0, step, 2*step, ...` while `i < H`. -/
def sliceRanges (H W : Nat) : List (Nat × Nat) :=
  slicesGo H (H / W) 0 H

/-- The color that §4.3 + §4.2 + §4.1 assign to pixel `(x, y)`: the palette
entry of the iteration count at the directly-evaluated complex coordinate
`((x - Width/2) * zoom + offset_x, (y - Height/2) * zoom + offset_y)`. -/
def pixColor (zoom offset_X offset_Y : ℚ) (x y : Nat) : Color :=
  colors (computeMandelbrot
    (((x : ℚ) - (IMAGE_WIDTH : ℚ) / 2) * zoom + offset_X)
    (((y : ℚ) - (IMAGE_HEIGHT : ℚ) / 2) * zoom + offset_Y))

/-- The accumulated real coordinate of `Mandelbrot::UpdateImageSlice`:
initialized to `0 * zoom - IMAGE_WIDTH / 2.0 * zoom + offset_X`
(src/main.cpp line 62) and incremented by `zoom` once per column step
(`c_real += zoom`, line 64). `cRealAcc zoom offset_X x` is the value used for
column `x`. -/
def cRealAcc (zoom offset_X : ℚ) : Nat → ℚ
  | 0 => 0 * zoom - (IMAGE_WIDTH : ℚ) / 2 * zoom + offset_X
  | x + 1 => cRealAcc zoom offset_X x + zoom

/-- The accumulated imaginary coordinate of `Mandelbrot::UpdateImageSlice`:
initialized to `minY * zoom - IMAGE_HEIGHT / 2.0 * zoom + offset_Y`
(src/main.cpp line 63) and incremented by `zoom` once per row step
(`c_imag += zoom`, line 66). `cImagAcc zoom offset_Y minY k` is the value
used for row `minY + k`. -/
def cImagAcc (zoom offset_Y : ℚ) (minY : Nat) : Nat → ℚ
  | 0 => (minY : ℚ) * zoom - (IMAGE_HEIGHT : ℚ) / 2 * zoom + offset_Y
  | k + 1 => cImagAcc zoom offset_Y minY k + zoom

/-- Modelled from the spec (§4.3): direct evaluation of the coordinate
transform, `c_real = (x - Width/2) * zoom + offset_x`, for comparison with
the code's incremental accumulation. -/
def transformReal (zoom offset_X x : ℚ) : ℚ :=
  (x - (IMAGE_WIDTH : ℚ) / 2) * zoom + offset_X

/-- Modelled from the spec (§4.3): direct evaluation of the coordinate
transform, `c_imag = (y - Height/2) * zoom + offset_y`, for comparison with
the code's incremental accumulation. -/
def transformImag (zoom offset_Y y : ℚ) : ℚ :=
  (y - (IMAGE_HEIGHT : ℚ) / 2) * zoom + offset_Y

/-- The blend parameter `t = (double)iterations / (double)kMaxIterations`
of `Mandelbrot::GetColor` (src/main.cpp line 53). -/
def tQ (i : Nat) : ℚ := (i : ℚ) / (kMaxIterations : ℚ)

/-- The all-black surface created by `image.create(IMAGE_WIDTH, IMAGE_HEIGHT,
sf::Color(0, 0, 0))` in `main` (src/main.cpp line 99); used as a concrete
starting surface. -/
def blackImage : Image := fun _ _ => ⟨0, 0, 0⟩

theorem mandelGo_zero (c_real c_imag z_real z_imag : ℚ) (counter : Nat) :
    mandelGo c_real c_imag z_real z_imag counter 0 = kMaxIterations := rfl

theorem mandelGo_succ (c_real c_imag z_real z_imag : ℚ) (counter fuel : Nat) :
    mandelGo c_real c_imag z_real z_imag counter (fuel + 1) =
      if z_real * z_real + z_imag * z_imag > 4 then counter
      else mandelGo c_real c_imag
        (z_real * z_real - z_imag * z_imag + c_real)
        (2 * z_real * z_imag + c_imag) (counter + 1) fuel := rfl

theorem columnLoop_zero (x : Nat) (c_real zoom c_imag : ℚ) (y : Nat)
    (img : Image) : columnLoop x c_real zoom c_imag y 0 img = img := rfl

theorem columnLoop_succ (x : Nat) (c_real zoom c_imag : ℚ) (y n : Nat)
    (img : Image) :
    columnLoop x c_real zoom c_imag y (n + 1) img =
      columnLoop x c_real zoom (c_imag + zoom) (y + 1) n
        (setPixel img x y (colors (computeMandelbrot c_real c_imag))) := rfl

theorem rowLoop_zero (zoom c_imag_start : ℚ) (minY maxY : Nat) (c_real : ℚ)
    (x : Nat) (img : Image) :
    rowLoop zoom c_imag_start minY maxY c_real x 0 img = img := rfl

theorem rowLoop_succ (zoom c_imag_start : ℚ) (minY maxY : Nat) (c_real : ℚ)
    (x n : Nat) (img : Image) :
    rowLoop zoom c_imag_start minY maxY c_real x (n + 1) img =
      rowLoop zoom c_imag_start minY maxY (c_real + zoom) (x + 1) n
        (columnLoop x c_real zoom c_imag_start minY (maxY - minY) img) := rfl

theorem updateImageGo_zero (zoom offset_X offset_Y : ℚ) (step i : Nat)
    (img : Image) : updateImageGo zoom offset_X offset_Y step i 0 img = img := rfl

theorem updateImageGo_succ (zoom offset_X offset_Y : ℚ) (step i fuel : Nat)
    (img : Image) :
    updateImageGo zoom offset_X offset_Y step i (fuel + 1) img =
      if i < IMAGE_HEIGHT then
        updateImageGo zoom offset_X offset_Y step (i + step) fuel
          (updateImageSlice zoom offset_X offset_Y img i
            (min (i + step) IMAGE_HEIGHT))
      else img := rfl

/-- Pointwise effect of the inner row loop: it writes exactly the pixels
`(x, y'), y ≤ y' < y + n`, and the accumulated `c_imag` value used at row
`y'` equals `y' * zoom + base` whenever the starting value does at row `y`. -/
theorem columnLoop_apply (x : Nat) (c_real zoom base : ℚ) :
    ∀ (n y : Nat) (c_imag : ℚ), c_imag = (y : ℚ) * zoom + base →
    ∀ (img : Image) (x' y' : Nat),
      columnLoop x c_real zoom c_imag y n img x' y' =
        if x' = x ∧ y ≤ y' ∧ y' < y + n
        then colors (computeMandelbrot c_real ((y' : ℚ) * zoom + base))
        else img x' y' := by
  intro n
  induction n with
  | zero =>
    intro y c_imag _ img x' y'
    rw [columnLoop_zero, if_neg (by omega)]
  | succ n ih =>
    intro y c_imag hci img x' y'
    rw [columnLoop_succ,
      ih (y + 1) (c_imag + zoom) (by rw [hci]; push_cast; ring)]
    simp only [setPixel]
    split_ifs with h1 h2 h3 h4 h5 <;>
      first
        | rfl
        | omega
        | (rw [hci, h3.2])

/-- Pointwise effect of the outer column loop of `UpdateImageSlice`: it writes
exactly the pixels `x ≤ x' < x + n`, `minY ≤ y' < minY + (maxY - minY)`, and
the accumulated `c_real` value used at column `x'` equals
`x' * zoom + rbase` whenever the starting value does at column `x`. -/
theorem rowLoop_apply (zoom c_imag_start ibase rbase : ℚ) (minY maxY : Nat)
    (hs : c_imag_start = (minY : ℚ) * zoom + ibase) :
    ∀ (n x : Nat) (c_real : ℚ), c_real = (x : ℚ) * zoom + rbase →
    ∀ (img : Image) (x' y' : Nat),
      rowLoop zoom c_imag_start minY maxY c_real x n img x' y' =
        if x ≤ x' ∧ x' < x + n ∧ minY ≤ y' ∧ y' < minY + (maxY - minY)
        then colors (computeMandelbrot ((x' : ℚ) * zoom + rbase)
          ((y' : ℚ) * zoom + ibase))
        else img x' y' := by
  intro n
  induction n with
  | zero =>
    intro x c_real _ img x' y'
    rw [rowLoop_zero, if_neg (by omega)]
  | succ n ih =>
    intro x c_real hcr img x' y'
    rw [rowLoop_succ, ih (x + 1) (c_real + zoom) (by rw [hcr]; push_cast; ring),
      columnLoop_apply x c_real zoom ibase (maxY - minY) minY c_imag_start hs]
    split_ifs with h1 h2 h3 h4 h5 <;>
      first
        | rfl
        | omega
        | (rw [hcr, h3.1])

/-- Pointwise effect of `UpdateImageSlice`: it repaints exactly the pixels
with `x < IMAGE_WIDTH` and `minY ≤ y < minY + (maxY - minY)`, with the
directly-evaluated color `pixColor`; every other pixel keeps its value. -/
theorem updateImageSlice_apply (zoom offset_X offset_Y : ℚ) (img : Image)
    (minY maxY x' y' : Nat) :
    updateImageSlice zoom offset_X offset_Y img minY maxY x' y' =
      if x' < IMAGE_WIDTH ∧ minY ≤ y' ∧ y' < minY + (maxY - minY)
      then pixColor zoom offset_X offset_Y x' y'
      else img x' y' := by
  unfold updateImageSlice
  rw [rowLoop_apply zoom _ (offset_Y - (IMAGE_HEIGHT : ℚ) / 2 * zoom)
      (offset_X - (IMAGE_WIDTH : ℚ) / 2 * zoom) minY maxY (by ring)
      IMAGE_WIDTH 0 _ (by push_cast; ring)]
  refine if_congr (by omega) ?_ rfl
  unfold pixColor
  have hr : (x' : ℚ) * zoom + (offset_X - (IMAGE_WIDTH : ℚ) / 2 * zoom) =
      ((x' : ℚ) - (IMAGE_WIDTH : ℚ) / 2) * zoom + offset_X := by ring
  have hi : (y' : ℚ) * zoom + (offset_Y - (IMAGE_HEIGHT : ℚ) / 2 * zoom) =
      ((y' : ℚ) - (IMAGE_HEIGHT : ℚ) / 2) * zoom + offset_Y := by ring
  rw [hr, hi]

/-- Pointwise effect of the slice-dispatch loop starting at index `i` with
enough fuel: every pixel with `x < IMAGE_WIDTH`, `i ≤ y < IMAGE_HEIGHT` ends
up holding the directly-evaluated color; every other pixel keeps its value. -/
theorem updateImageGo_apply (zoom offset_X offset_Y : ℚ) (step : Nat)
    (hstep : 1 ≤ step) :
    ∀ (fuel i : Nat) (img : Image), IMAGE_HEIGHT - i ≤ fuel * step →
    ∀ x' y', updateImageGo zoom offset_X offset_Y step i fuel img x' y' =
      if x' < IMAGE_WIDTH ∧ i ≤ y' ∧ y' < IMAGE_HEIGHT
      then pixColor zoom offset_X offset_Y x' y'
      else img x' y' := by
  intro fuel
  induction fuel with
  | zero =>
    intro i img hfu x' y'
    rw [updateImageGo_zero, if_neg (by omega)]
  | succ n ih =>
    intro i img hfu x' y'
    rw [Nat.succ_mul] at hfu
    rw [updateImageGo_succ]
    by_cases hi : i < IMAGE_HEIGHT
    · rw [if_pos hi,
        ih (i + step) _ (by
          rw [Nat.sub_le_iff_le_add] at hfu ⊢
          linarith) x' y']
      rw [updateImageSlice_apply]
      split_ifs <;> first | rfl | omega
    · rw [if_neg hi, if_neg (by omega)]

theorem mandelGo_le (c_real c_imag : ℚ) :
    ∀ (fuel : Nat) (z_real z_imag : ℚ) (counter : Nat),
      counter + fuel = kMaxIterations →
      mandelGo c_real c_imag z_real z_imag counter fuel ≤ kMaxIterations := by
  intro fuel
  induction fuel with
  | zero => intro _ _ _ _; exact Nat.le_refl _
  | succ n ih =>
    intro z_real z_imag counter hc
    rw [mandelGo_succ]
    split
    · omega
    · exact ih _ _ (counter + 1) (by omega)

theorem updateImage_eq (zoom offset_X offset_Y : ℚ) (W : Nat) (img : Image)
    (hW1 : 1 ≤ W) (hW2 : W ≤ IMAGE_HEIGHT) :
    updateImage zoom offset_X offset_Y W img =
      some (updateImageGo zoom offset_X offset_Y (IMAGE_HEIGHT / W) 0
        IMAGE_HEIGHT img) := by
  have h0 : W ≠ 0 := by omega
  have hstep : 1 ≤ IMAGE_HEIGHT / W := (Nat.one_le_div_iff (by omega)).2 hW2
  unfold updateImage
  rw [if_neg h0, if_neg (by omega)]

/-- Full characterization of `UpdateImage` for any reported concurrency that
makes it return: the surface is fully repainted on `[0, Width) × [0, Height)`
with the directly-evaluated colors, and untouched elsewhere. -/
theorem updateImage_apply (zoom offset_X offset_Y : ℚ) (W : Nat) (img : Image)
    (hW1 : 1 ≤ W) (hW2 : W ≤ IMAGE_HEIGHT) :
    updateImage zoom offset_X offset_Y W img =
      some (fun x' y' =>
        if x' < IMAGE_WIDTH ∧ y' < IMAGE_HEIGHT
        then pixColor zoom offset_X offset_Y x' y'
        else img x' y') := by
  rw [updateImage_eq zoom offset_X offset_Y W img hW1 hW2]
  have hstep : 1 ≤ IMAGE_HEIGHT / W := (Nat.one_le_div_iff (by omega)).2 hW2
  congr 1
  funext x' y'
  rw [updateImageGo_apply zoom offset_X offset_Y _ hstep IMAGE_HEIGHT 0 img
    (by rw [Nat.sub_zero]; exact Nat.le_mul_of_pos_right IMAGE_HEIGHT hstep)
    x' y']
  exact if_congr (by omega) rfl rfl

theorem loopIndex_eq (step : Nat) : ∀ n : Nat, loopIndex step n = n * step := by
  intro n
  induction n with
  | zero => rw [Nat.zero_mul]; rfl
  | succ m ih => rw [loopIndex, ih, Nat.succ_mul]

theorem slicesGo_zero (H step i : Nat) : slicesGo H step i 0 = [] := rfl

theorem slicesGo_succ (H step i fuel : Nat) :
    slicesGo H step i (fuel + 1) =
      if i < H then (i, min (i + step) H) :: slicesGo H step (i + step) fuel
      else [] := rfl

/-- With enough fuel, the dispatch loop produces exactly the slices
`(i + k*step, min (i + k*step + step) H)` for `k < ⌈(H - i) / step⌉`. -/
theorem slicesGo_eq (H step : Nat) (hstep : 1 ≤ step) :
    ∀ (fuel i : Nat), H - i ≤ fuel * step →
      slicesGo H step i fuel =
        (List.range ((H - i + step - 1) / step)).map
          (fun k => (i + k * step, min (i + k * step + step) H)) := by
  intro fuel
  induction fuel with
  | zero =>
    intro i h
    rw [Nat.zero_mul] at h
    have h0 : H - i = 0 := by omega
    rw [slicesGo_zero, h0, Nat.div_eq_of_lt (by omega)]
    rfl
  | succ n ih =>
    intro i h
    rw [Nat.succ_mul] at h
    rw [slicesGo_succ]
    by_cases hi : i < H
    · rw [if_pos hi, ih (i + step) (by
        rw [Nat.sub_le_iff_le_add] at h ⊢
        linarith)]
      have hcount : (H - i + step - 1) / step =
          (H - (i + step) + step - 1) / step + 1 := by
        rcases Nat.lt_or_ge (H - i) step with hd | hd
        · have e1 : H - i + step - 1 = (H - i - 1) + step := by omega
          have e2 : H - (i + step) = 0 := by omega
          rw [e1, Nat.add_div_right _ (by omega), Nat.div_eq_of_lt (by omega),
            e2, Nat.div_eq_of_lt (by omega)]
        · have e1 : H - i + step - 1 = (H - (i + step) + step - 1) + step := by
            omega
          rw [e1, Nat.add_div_right _ (by omega)]
      rw [hcount, List.range_succ_eq_map, List.map_cons, List.map_map]
      congr 1
      · simp
      · refine List.map_congr_left ?_
        intro k _
        simp only [Function.comp, Nat.succ_eq_add_one]
        have e : i + (k + 1) * step = i + step + k * step := by ring
        rw [e]
    · rw [if_neg hi]
      have h0 : H - i = 0 := by omega
      rw [h0, Nat.div_eq_of_lt (by omega)]
      rfl

/-- Every row `r < H` lies in exactly one of the slice ranges produced by the
partitioning scheme, for any worker count `1 ≤ W ≤ H`. -/
theorem sliceRanges_cover (H W : Nat) (hW1 : 1 ≤ W) (hW2 : W ≤ H)
    (r : Nat) (hr : r < H) :
    ∃! p : Nat × Nat, p ∈ sliceRanges H W ∧ p.1 ≤ r ∧ r < p.2 := by
  have hstep : 1 ≤ H / W := (Nat.one_le_div_iff (by omega)).2 hW2
  set step := H / W with hstepdef
  have hdiv : 0 < step := hstep
  have hfuel : H - 0 ≤ H * step := by
    rw [Nat.sub_zero]
    exact Nat.le_mul_of_pos_right H hstep
  rw [sliceRanges, ← hstepdef, slicesGo_eq H step hstep H 0 hfuel]
  refine ⟨(r / step * step, min (r / step * step + step) H),
    ⟨?_, ?_, ?_⟩, ?_⟩
  · simp only [List.mem_map, List.mem_range]
    refine ⟨r / step, ?_, by simp⟩
    have e : H - 0 + step - 1 = (H - 1) + step := by omega
    rw [e, Nat.add_div_right _ hdiv]
    have : r / step ≤ (H - 1) / step := Nat.div_le_div_right (by omega)
    omega
  · exact Nat.div_mul_le_self r step
  · refine lt_min ?_ hr
    calc r = step * (r / step) + r % step := (Nat.div_add_mod r step).symm
    _ < step * (r / step) + step := by
        have := Nat.mod_lt r hdiv
        omega
    _ = r / step * step + step := by rw [Nat.mul_comm]
  · rintro ⟨a, b⟩ ⟨hmem, hle, hlt⟩
    simp only [List.mem_map, List.mem_range] at hmem
    obtain ⟨k, hk, hfk⟩ := hmem
    injection hfk with ha hb
    subst ha hb
    simp only [Nat.zero_add] at hle hlt ⊢
    have hlt' : r < k * step + step := lt_of_lt_of_le hlt (min_le_left _ _)
    have hk1 : k ≤ r / step := (Nat.le_div_iff_mul_le hdiv).2 hle
    have hk2 : r / step < k + 1 := by
      refine (Nat.div_lt_iff_lt_mul hdiv).2 ?_
      rw [Nat.succ_mul]
      exact hlt'
    have hkeq : k = r / step := by omega
    rw [hkeq]

/-- The orbit of `c = (0, 0)` stays at the origin and never escapes. -/
theorem mandelGo_orbit_zero : ∀ (fuel counter : Nat),
    mandelGo 0 0 0 0 counter fuel = kMaxIterations := by
  intro fuel
  induction fuel with
  | zero => intro counter; rfl
  | succ n ih =>
    intro counter
    rw [mandelGo_succ]
    norm_num
    exact ih (counter + 1)

/-- Storing a value `q ∈ [0, 255]`: the `(int)` cast is the floor, and the
conversion to an 8-bit channel neither clamps nor wraps. -/
theorem store_channel (q : ℚ) (h0 : 0 ≤ q) (h255 : q ≤ 255) :
    ((toUint8 (truncToInt q) : Nat) : Int) = ⌊q⌋ ∧
      toUint8 (truncToInt q) ≤ 255 := by
  have ht : truncToInt q = ⌊q⌋ := if_pos h0
  have hf0 : 0 ≤ ⌊q⌋ := Int.le_floor.2 (by exact_mod_cast h0)
  have hf255 : ⌊q⌋ ≤ 255 := by
    have h2 : ((255 : ℤ) : ℚ) = (255 : ℚ) := by norm_num
    calc ⌊q⌋ ≤ ⌊((255 : ℤ) : ℚ)⌋ := Int.floor_mono (by rw [h2]; exact h255)
    _ = 255 := Int.floor_intCast 255
  unfold toUint8
  rw [ht]
  have hmod : ⌊q⌋ % 256 = ⌊q⌋ := Int.emod_eq_of_lt hf0 (by omega)
  rw [hmod]
  exact ⟨Int.toNat_of_nonneg hf0, by omega⟩

theorem getColor_r (i : Nat) :
    (getColor i).r =
      toUint8 (truncToInt (9 * (1 - tQ i) * tQ i * tQ i * tQ i * 255)) := rfl

theorem getColor_g (i : Nat) :
    (getColor i).g =
      toUint8 (truncToInt (15 * (1 - tQ i) * (1 - tQ i) * tQ i * tQ i * 255)) :=
  rfl

theorem getColor_b (i : Nat) :
    (getColor i).b =
      toUint8 (truncToInt
        ((8.5 : ℚ) * (1 - tQ i) * (1 - tQ i) * (1 - tQ i) * tQ i * 255)) := rfl

theorem getColor_zero : getColor 0 = ⟨0, 0, 0⟩ := by
  norm_num [getColor, truncToInt, toUint8, kMaxIterations]

theorem getColor_max : getColor kMaxIterations = ⟨0, 0, 0⟩ := by
  norm_num [getColor, truncToInt, toUint8, kMaxIterations]

theorem tQ_nonneg (i : Nat) : 0 ≤ tQ i := by
  unfold tQ
  positivity

theorem tQ_le_one (i : Nat) (hi : i ≤ kMaxIterations) : tQ i ≤ 1 := by
  unfold tQ
  rw [div_le_one (by norm_num [kMaxIterations])]
  exact_mod_cast hi

/-- The accumulated real coordinate agrees with direct evaluation of the
affine transform at every column. -/
theorem cRealAcc_eq (zoom offset_X : ℚ) : ∀ x : Nat,
    cRealAcc zoom offset_X x = transformReal zoom offset_X (x : ℚ) := by
  intro x
  unfold transformReal
  induction x with
  | zero =>
    simp only [cRealAcc]
    push_cast
    ring
  | succ n ih =>
    simp only [cRealAcc, ih]
    push_cast
    ring

/-- The accumulated imaginary coordinate agrees with direct evaluation of the
affine transform at every row `minY + k`. -/
theorem cImagAcc_eq (zoom offset_Y : ℚ) (minY : Nat) : ∀ k : Nat,
    cImagAcc zoom offset_Y minY k =
      transformImag zoom offset_Y ((minY : ℚ) + (k : ℚ)) := by
  intro k
  unfold transformImag
  induction k with
  | zero =>
    simp only [cImagAcc]
    push_cast
    ring
  | succ n ih =>
    simp only [cImagAcc, ih]
    push_cast
    ring

/-! ## Claims -/

/-- **C1** (functional_correctness): for every viewport `(zoom, offset_X,
offset_Y)` and starting surface, whenever `UpdateImage` returns (reported
concurrency `1 ≤ W ≤ IMAGE_HEIGHT`, the cases in which the dispatch loop
runs and terminates), every pixel `(x, y)` with `x < IMAGE_WIDTH`,
`y < IMAGE_HEIGHT` holds exactly the palette color indexed by the iteration
count of the escape-time kernel at the complex-plane coordinate of `(x, y)`
under that viewport; no pixel of the frame is left unwritten or stale. -/
theorem updateImage_full_frame (zoom offset_X offset_Y : ℚ) (W : Nat)
    (img : Image) (hW1 : 1 ≤ W) (hW2 : W ≤ IMAGE_HEIGHT) :
    ∃ img', updateImage zoom offset_X offset_Y W img = some img' ∧
      ∀ x y, x < IMAGE_WIDTH → y < IMAGE_HEIGHT →
        img' x y = colors (computeMandelbrot
          (((x : ℚ) - (IMAGE_WIDTH : ℚ) / 2) * zoom + offset_X)
          (((y : ℚ) - (IMAGE_HEIGHT : ℚ) / 2) * zoom + offset_Y)) := by
  refine ⟨_, updateImage_apply zoom offset_X offset_Y W img hW1 hW2, ?_⟩
  intro x y hx hy
  rw [if_pos ⟨hx, hy⟩]
  rfl

/-- Witness for C1: concrete instantiation at `W = 1`, viewport
`(1, 0, 0)`, starting from the all-black surface. -/
theorem updateImage_full_frame_witness :
    ∃ img', updateImage 1 0 0 1 blackImage = some img' ∧
      ∀ x y, x < IMAGE_WIDTH → y < IMAGE_HEIGHT →
        img' x y = colors (computeMandelbrot
          (((x : ℚ) - (IMAGE_WIDTH : ℚ) / 2) * 1 + 0)
          (((y : ℚ) - (IMAGE_HEIGHT : ℚ) / 2) * 1 + 0)) :=
  updateImage_full_frame 1 0 0 1 blackImage (by decide) (by decide)

/-- **C2** (functional_correctness): the iteration kernel is total and
returns a value in `[0, kMaxIterations]` for every input (the value is a
`Nat`, so the lower bound is intrinsic); it starts the orbit at `z = c`,
on each step returns the number of completed steps as soon as
`z_real² + z_imag² > 4`, otherwise updates `z_imag := 2·z_real·z_imag +
c_imag` and `z_real := r2 - i2 + c_real`, and returns `kMaxIterations` when
the iteration budget is exhausted without escaping. -/
theorem computeMandelbrot_total_bounded :
    (∀ c_real c_imag : ℚ, computeMandelbrot c_real c_imag ≤ kMaxIterations) ∧
    (∀ c_real c_imag : ℚ,
      computeMandelbrot c_real c_imag =
        mandelGo c_real c_imag c_real c_imag 0 kMaxIterations) ∧
    (∀ (c_real c_imag z_real z_imag : ℚ) (counter fuel : Nat),
      mandelGo c_real c_imag z_real z_imag counter (fuel + 1) =
        if z_real * z_real + z_imag * z_imag > 4 then counter
        else mandelGo c_real c_imag
          (z_real * z_real - z_imag * z_imag + c_real)
          (2 * z_real * z_imag + c_imag) (counter + 1) fuel) ∧
    (∀ (c_real c_imag z_real z_imag : ℚ) (counter : Nat),
      mandelGo c_real c_imag z_real z_imag counter 0 = kMaxIterations) :=
  ⟨fun c_real c_imag =>
      mandelGo_le c_real c_imag kMaxIterations c_real c_imag 0 rfl,
    fun _ _ => rfl, mandelGo_succ, mandelGo_zero⟩

/-- **C3** (error_handling): the claim says that with reported hardware
concurrency `0` the update still completes using at least one slice instead
of dividing by zero. The code does no such fallback: it evaluates
`IMAGE_HEIGHT / std::thread::hardware_concurrency()` with the divisor `0`
(undefined behavior in C++, modelled as `none`), and no repopulated surface
is ever produced. -/
theorem updateImage_zero_concurrency (zoom offset_X offset_Y : ℚ)
    (img : Image) : updateImage zoom offset_X offset_Y 0 img = none := rfl

/-- Counterexample for **C4**: at reported concurrency `W = 8` (and height
`540`), `STEP = 540 / 8 = 67` and the dispatch loop creates `⌈540/67⌉ = 9`
slices, not exactly `8`: the remainder rows are not absorbed into the last
of `W` slices but form an extra, shorter, final slice. -/
theorem dispatchedSlices_count_counterexample :
    (dispatchedSlices 8).length = 9 ∧ (dispatchedSlices 8).length ≠ 8 := by
  constructor <;> decide

/-- **C4** as amended (functional_correctness): for every reported hardware
concurrency `1 ≤ W ≤ IMAGE_HEIGHT`, the update dispatches
`⌈IMAGE_HEIGHT / STEP⌉` contiguous slices where `STEP = ⌊IMAGE_HEIGHT / W⌋`
— which equals exactly `W` when `W` divides `IMAGE_HEIGHT`, and otherwise
exceeds `W`, the remainder rows forming extra trailing slices — and in every
case each row of the image is covered by exactly one slice (no overlap, no
gap). -/
theorem dispatchedSlices_count (W : Nat) (hW1 : 1 ≤ W)
    (hW2 : W ≤ IMAGE_HEIGHT) :
    (dispatchedSlices W).length =
      (IMAGE_HEIGHT + IMAGE_HEIGHT / W - 1) / (IMAGE_HEIGHT / W) ∧
    (W ∣ IMAGE_HEIGHT → (dispatchedSlices W).length = W) ∧
    (∀ r, r < IMAGE_HEIGHT →
      ∃! p : Nat × Nat, p ∈ dispatchedSlices W ∧ p.1 ≤ r ∧ r < p.2) := by
  have hstep : 1 ≤ IMAGE_HEIGHT / W := (Nat.one_le_div_iff (by omega)).2 hW2
  have hlen : (dispatchedSlices W).length =
      (IMAGE_HEIGHT + IMAGE_HEIGHT / W - 1) / (IMAGE_HEIGHT / W) := by
    unfold dispatchedSlices
    rw [slicesGo_eq IMAGE_HEIGHT (IMAGE_HEIGHT / W) hstep IMAGE_HEIGHT 0
      (by rw [Nat.sub_zero]
          exact Nat.le_mul_of_pos_right IMAGE_HEIGHT hstep)]
    rw [List.length_map, List.length_range, Nat.sub_zero]
  refine ⟨hlen, ?_, ?_⟩
  · intro hdvd
    have hmul : IMAGE_HEIGHT / W * W = IMAGE_HEIGHT := Nat.div_mul_cancel hdvd
    rw [hlen]
    generalize hgen : IMAGE_HEIGHT / W = step at hmul hstep ⊢
    rw [← hmul, Nat.add_sub_assoc (by omega),
      Nat.mul_add_div (by omega), Nat.div_eq_of_lt (by omega)]
    rfl
  · intro r hr
    exact sliceRanges_cover IMAGE_HEIGHT W hW1 hW2 r hr

/-- Witness for C4 (amended): concrete instantiation at `W = 8`. -/
theorem dispatchedSlices_count_witness :
    (dispatchedSlices 8).length = (IMAGE_HEIGHT + IMAGE_HEIGHT / 8 - 1) /
        (IMAGE_HEIGHT / 8) ∧
    (8 ∣ IMAGE_HEIGHT → (dispatchedSlices 8).length = 8) ∧
    (∀ r, r < IMAGE_HEIGHT →
      ∃! p : Nat × Nat, p ∈ dispatchedSlices 8 ∧ p.1 ≤ r ∧ r < p.2) :=
  dispatchedSlices_count 8 (by decide) (by decide)

/-- **C5** (invariants): for every image height `H ≥ 1` and worker count
`1 ≤ W ≤ H`, the slice row-ranges produced by the partitioning scheme
(`step = ⌊H/W⌋`, ranges `[i, min (i + step) H)` for `i = 0, step, 2·step,
...`) are pairwise disjoint and cover `[0, H)` exactly: every row `r < H`
belongs to exactly one slice. -/
theorem slice_partition_exact (H W r : Nat) (hW1 : 1 ≤ W) (hW2 : W ≤ H)
    (hr : r < H) :
    ∃! p : Nat × Nat, p ∈ sliceRanges H W ∧ p.1 ≤ r ∧ r < p.2 :=
  sliceRanges_cover H W hW1 hW2 r hr

/-- Witness for C5: concrete instantiation at `H = 10`, `W = 3`, `r = 7`. -/
theorem slice_partition_exact_witness :
    ∃! p : Nat × Nat, p ∈ sliceRanges 10 3 ∧ p.1 ≤ 7 ∧ 7 < p.2 :=
  slice_partition_exact 10 3 7 (by decide) (by decide) (by decide)

/-- **C6** (numerical): the incrementally accumulated coordinates of the
slice loop (start value plus `zoom` per pixel step) agree exactly with
direct evaluation of `c_real = (x - Width/2)·zoom + offset_x`,
`c_imag = (y - Height/2)·zoom + offset_y` at every pixel (the model computes
with exact rationals, where the accumulation introduces no drift at all);
in particular the transform maps the image center `(Width/2, Height/2)` to
exactly `(offset_x, offset_y)`, and the real parts of horizontally adjacent
pixels differ by exactly `zoom`. -/
theorem coordinate_accumulation_exact :
    ∀ (zoom offset_X offset_Y : ℚ) (minY x y : Nat),
      cRealAcc zoom offset_X x = transformReal zoom offset_X (x : ℚ) ∧
      cImagAcc zoom offset_Y minY y =
        transformImag zoom offset_Y ((minY : ℚ) + (y : ℚ)) ∧
      transformReal zoom offset_X ((IMAGE_WIDTH : ℚ) / 2) = offset_X ∧
      transformImag zoom offset_Y ((IMAGE_HEIGHT : ℚ) / 2) = offset_Y ∧
      transformReal zoom offset_X ((x : ℚ) + 1) -
        transformReal zoom offset_X (x : ℚ) = zoom ∧
      cRealAcc zoom offset_X (x + 1) - cRealAcc zoom offset_X x = zoom := by
  intro zoom offset_X offset_Y minY x y
  refine ⟨cRealAcc_eq zoom offset_X x, cImagAcc_eq zoom offset_Y minY y,
    by unfold transformReal; ring, by unfold transformImag; ring,
    by unfold transformReal; ring, ?_⟩
  rw [cRealAcc_eq zoom offset_X (x + 1), cRealAcc_eq zoom offset_X x]
  unfold transformReal
  push_cast
  ring

/-- **C7** (refinement_equivalence): the frame computed with the partition
into `N` slices (any reported concurrency `1 ≤ W ≤ IMAGE_HEIGHT`) is
pixel-identical to the frame computed as one single slice covering all rows
(`W = 1` gives `STEP = IMAGE_HEIGHT`, a single slice): the per-pixel results
are independent of how the rows are partitioned. -/
theorem updateImage_partition_independent (zoom offset_X offset_Y : ℚ)
    (W : Nat) (img : Image) (hW1 : 1 ≤ W) (hW2 : W ≤ IMAGE_HEIGHT) :
    updateImage zoom offset_X offset_Y W img =
      updateImage zoom offset_X offset_Y 1 img := by
  rw [updateImage_apply zoom offset_X offset_Y W img hW1 hW2,
    updateImage_apply zoom offset_X offset_Y 1 img (by omega) (by decide)]

/-- Witness for C7: concrete instantiation at `W = 7` (8 slices, with a
remainder slice), viewport `(1, 0, 0)`, all-black surface. -/
theorem updateImage_partition_independent_witness :
    updateImage 1 0 0 7 blackImage = updateImage 1 0 0 1 blackImage :=
  updateImage_partition_independent 1 0 0 7 blackImage (by decide) (by decide)

/-- **C8** (safety): for every `i ∈ [0, kMaxIterations]`, with
`t = i / kMaxIterations`, the stored palette entry's channels equal the
floors of the three blending polynomials scaled by 255, each lying in
`[0, 255]` after storage with no overflow or wraparound (the stored 8-bit
value equals the un-truncated floor); at `t = 0` and `t = 1` the stored
values are exactly the polynomials' boundary values `(0, 0, 0)`. -/
theorem palette_channels (i : Nat) (hi : i ≤ kMaxIterations) :
    ((getColor i).r : Int) = ⌊9 * (1 - tQ i) * tQ i * tQ i * tQ i * 255⌋ ∧
    (getColor i).r ≤ 255 ∧
    ((getColor i).g : Int) =
      ⌊15 * (1 - tQ i) * (1 - tQ i) * tQ i * tQ i * 255⌋ ∧
    (getColor i).g ≤ 255 ∧
    ((getColor i).b : Int) =
      ⌊(8.5 : ℚ) * (1 - tQ i) * (1 - tQ i) * (1 - tQ i) * tQ i * 255⌋ ∧
    (getColor i).b ≤ 255 ∧
    getColor 0 = ⟨0, 0, 0⟩ ∧ getColor kMaxIterations = ⟨0, 0, 0⟩ := by
  have h0 := tQ_nonneg i
  have h1 := tQ_le_one i hi
  have h1t : (0 : ℚ) ≤ 1 - tQ i := by linarith
  have hrL : 0 ≤ 9 * (1 - tQ i) * tQ i * tQ i * tQ i * 255 := by positivity
  have hrU : 9 * (1 - tQ i) * tQ i * tQ i * tQ i * 255 ≤ 255 := by
    nlinarith [sq_nonneg (3 * tQ i ^ 2 - 3 / 2 * tQ i - 1 / 2),
      sq_nonneg (tQ i - 1)]
  have hgL : 0 ≤ 15 * (1 - tQ i) * (1 - tQ i) * tQ i * tQ i * 255 := by
    nlinarith [mul_nonneg h0 h1t, sq_nonneg ((1 - tQ i) * tQ i)]
  have hgU : 15 * (1 - tQ i) * (1 - tQ i) * tQ i * tQ i * 255 ≤ 255 := by
    nlinarith [sq_nonneg (tQ i - 1 / 2), mul_nonneg h0 h1t]
  have hbL :
      0 ≤ (8.5 : ℚ) * (1 - tQ i) * (1 - tQ i) * (1 - tQ i) * tQ i * 255 := by
    nlinarith [mul_nonneg h0 h1t, sq_nonneg ((1 - tQ i) * tQ i),
      mul_nonneg (mul_nonneg h0 h1t) h1t]
  have hbU :
      (8.5 : ℚ) * (1 - tQ i) * (1 - tQ i) * (1 - tQ i) * tQ i * 255 ≤ 255 := by
    nlinarith [sq_nonneg ((1 / 4 - tQ i) * (5 / 4 - tQ i)),
      sq_nonneg (1 / 4 - tQ i)]
  obtain ⟨hr1, hr2⟩ := store_channel _ hrL hrU
  obtain ⟨hg1, hg2⟩ := store_channel _ hgL hgU
  obtain ⟨hb1, hb2⟩ := store_channel _ hbL hbU
  rw [getColor_r, getColor_g, getColor_b]
  exact ⟨hr1, hr2, hg1, hg2, hb1, hb2, getColor_zero, getColor_max⟩

/-- Witness for C8: concrete instantiation at `i = 500`. -/
theorem palette_channels_witness :
    ((getColor 500).r : Int) =
      ⌊9 * (1 - tQ 500) * tQ 500 * tQ 500 * tQ 500 * 255⌋ ∧
    (getColor 500).r ≤ 255 ∧
    ((getColor 500).g : Int) =
      ⌊15 * (1 - tQ 500) * (1 - tQ 500) * tQ 500 * tQ 500 * 255⌋ ∧
    (getColor 500).g ≤ 255 ∧
    ((getColor 500).b : Int) =
      ⌊(8.5 : ℚ) * (1 - tQ 500) * (1 - tQ 500) * (1 - tQ 500) * tQ 500 *
        255⌋ ∧
    (getColor 500).b ≤ 255 ∧
    getColor 0 = ⟨0, 0, 0⟩ ∧ getColor kMaxIterations = ⟨0, 0, 0⟩ :=
  palette_channels 500 (by decide)

/-- **C9** (functional_correctness): the kernel at `c = (0, 0)` returns
exactly `kMaxIterations` (the orbit stays at the origin and never escapes),
and at `c = (2, 0)` it returns `0` or `1` (in fact `1`: the first check sees
`r2 + i2 = 4`, not `> 4`, and the second sees `36 > 4`). -/
theorem computeMandelbrot_known_points :
    computeMandelbrot 0 0 = kMaxIterations ∧
    (computeMandelbrot 2 0 = 0 ∨ computeMandelbrot 2 0 = 1) := by
  refine ⟨mandelGo_orbit_zero kMaxIterations 0, Or.inr ?_⟩
  calc computeMandelbrot 2 0
      = mandelGo 2 0 2 0 0 (999 + 1) := rfl
    _ = mandelGo 2 0 (2 * 2 - 0 * 0 + 2) (2 * 2 * 0 + 0) (0 + 1) 999 := by
        rw [mandelGo_succ, if_neg (by norm_num)]
    _ = mandelGo 2 0 6 0 1 (998 + 1) := by
        rw [show (2 : ℚ) * 2 - 0 * 0 + 2 = 6 by norm_num,
          show (2 : ℚ) * 2 * 0 + 0 = 0 by norm_num, Nat.zero_add]
    _ = 1 := by
        rw [mandelGo_succ, if_pos (by norm_num)]

/-- **C10** (termination_resources): the slice-dispatch loop of
`UpdateImage` terminates (its index, advancing by `STEP` from `0`,
eventually reaches `IMAGE_HEIGHT`) if and only if `STEP ≥ 1`; the computed
step `⌊IMAGE_HEIGHT / W⌋` is at least `1` exactly when the reported
concurrency `W` lies between `1` and `IMAGE_HEIGHT` inclusive; and with
`STEP = 0` the loop index never advances, so the loop never terminates. -/
theorem dispatch_loop_termination :
    (∀ step : Nat, (∃ n, IMAGE_HEIGHT ≤ loopIndex step n) ↔ 1 ≤ step) ∧
    (∀ W : Nat, 1 ≤ IMAGE_HEIGHT / W ↔ (1 ≤ W ∧ W ≤ IMAGE_HEIGHT)) ∧
    (∀ n : Nat, loopIndex 0 n = 0) := by
  refine ⟨?_, ?_, ?_⟩
  · intro step
    constructor
    · rintro ⟨n, hn⟩
      by_contra h
      have hstep : step = 0 := by omega
      rw [hstep, loopIndex_eq, Nat.mul_zero] at hn
      simp [IMAGE_HEIGHT] at hn
    · intro hstep
      refine ⟨IMAGE_HEIGHT, ?_⟩
      rw [loopIndex_eq]
      calc IMAGE_HEIGHT = IMAGE_HEIGHT * 1 := (Nat.mul_one _).symm
      _ ≤ IMAGE_HEIGHT * step := Nat.mul_le_mul_left _ hstep
  · intro W
    rcases Nat.eq_zero_or_pos W with h0 | hpos
    · subst h0
      simp [IMAGE_HEIGHT]
    · rw [Nat.one_le_div_iff hpos]
      constructor
      · intro h
        exact ⟨hpos, h⟩
      · intro h
        exact h.2
  · intro n
    rw [loopIndex_eq, Nat.mul_zero]

end Mandelbrot
